import Mathlib

set_option maxHeartbeats 1000000

/-!
Shallow embedding of the tic-tac-toe search engine
(heuristics.py and minmax.py) and proofs of the specification claims.

Scores are modelled by extended integers: the Python code mixes integer
heuristic values with the floats INF and NEG_INF, and only ever compares
them, takes max and min, so an extended-integer total order is an exact
model of the values the program manipulates.
-/

/-- Extended integers: the integer heuristic scores together with the two
sentinels INF and NEG_INF from minmax.py. -/
inductive EInt : Type where
  | negInf : EInt
  | fin : Int → EInt
  | posInf : EInt
deriving DecidableEq, Repr

/-- Boolean comparison mirroring the Python comparison x <= y on scores. -/
def EInt.ble : EInt → EInt → Bool
  | .negInf, _ => true
  | .fin _, .negInf => false
  | .fin a, .fin b => decide (a ≤ b)
  | .fin _, .posInf => true
  | .posInf, .posInf => true
  | .posInf, _ => false

/-- Boolean strict comparison mirroring the Python comparison x < y. -/
def EInt.blt (a b : EInt) : Bool := !(EInt.ble b a)

/-- Python max(a, b): a if a is at least b, else b. -/
def EInt.maxE (a b : EInt) : EInt := if EInt.ble b a then a else b

/-- Python min(a, b): a if a is at most b, else b. -/
def EInt.minE (a b : EInt) : EInt := if EInt.ble a b then a else b

instance : LinearOrder EInt where
  le a b := EInt.ble a b = true
  lt a b := EInt.ble b a = false
  le_refl a := by cases a <;> simp [EInt.ble]
  le_trans a b c := by
    cases a <;> cases b <;> cases c <;> simp [EInt.ble] <;> omega
  le_antisymm a b := by
    cases a <;> cases b <;> simp [EInt.ble] <;> omega
  le_total a b := by
    cases a <;> cases b <;> simp [EInt.ble] <;> omega
  lt_iff_le_not_le a b := by
    cases a <;> cases b <;> simp [EInt.ble] <;> omega
  decidableLE a b := inferInstanceAs (Decidable (_ = true))
  decidableLT a b := inferInstanceAs (Decidable (_ = false))
  decidableEq := inferInstance

theorem EInt.ble_iff {a b : EInt} : EInt.ble a b = true ↔ a ≤ b := Iff.rfl

theorem EInt.not_ble_iff {a b : EInt} : EInt.ble a b = false ↔ b < a := by
  constructor
  · intro h
    exact h
  · intro h
    exact h

theorem EInt.blt_iff {a b : EInt} : EInt.blt a b = true ↔ a < b := by
  show (!EInt.ble b a) = true ↔ EInt.ble b a = false
  simp

theorem EInt.maxE_eq_max (a b : EInt) : EInt.maxE a b = max a b := by
  unfold EInt.maxE
  rcases h : EInt.ble b a with _ | _
  · rw [EInt.not_ble_iff] at h
    rw [max_eq_right h.le]
    simp
  · rw [EInt.ble_iff] at h
    rw [max_eq_left h]
    simp

theorem EInt.minE_eq_min (a b : EInt) : EInt.minE a b = min a b := by
  unfold EInt.minE
  rcases h : EInt.ble a b with _ | _
  · rw [EInt.not_ble_iff] at h
    rw [min_eq_right h.le]
    simp
  · rw [EInt.ble_iff] at h
    rw [min_eq_left h]
    simp

theorem EInt.le_negInf_iff {a : EInt} : a ≤ EInt.negInf ↔ a = EInt.negInf := by
  cases a <;> simp [LE.le, EInt.ble]

theorem EInt.posInf_le_iff {a : EInt} : EInt.posInf ≤ a ↔ a = EInt.posInf := by
  cases a <;> simp [LE.le, EInt.ble]

theorem EInt.negInf_lt_fin (z : Int) : EInt.negInf < EInt.fin z := by
  show EInt.ble (EInt.fin z) EInt.negInf = false
  rfl

theorem EInt.fin_lt_posInf (z : Int) : EInt.fin z < EInt.posInf := by
  show EInt.ble EInt.posInf (EInt.fin z) = false
  rfl

theorem EInt.negInf_lt_posInf : EInt.negInf < EInt.posInf := by
  show EInt.ble EInt.posInf EInt.negInf = false
  rfl

/-!
Board model from heuristics.py: a board is a list of 9 cells, each either
blank, an X mark or an O mark.
-/

/-- Cell contents: the Python strings given as blank, X mark and O mark. -/
inductive Cell : Type where
  | E : Cell
  | X : Cell
  | O : Cell
deriving DecidableEq, Repr, Fintype

/-- Player identity, the Python strings for the X player and the O player. -/
inductive Player : Type where
  | X : Player
  | O : Player
deriving DecidableEq, Repr, Fintype

/-- Mark written on the board by a player. -/
def Player.cell : Player → Cell
  | .X => .X
  | .O => .O

abbrev Board := List Cell

/-- Reading board index i, as the Python expression board i. -/
def cellAt (board : Board) (i : Nat) : Cell := board.getD i Cell.E

/-- WINNING_LINES from heuristics.py: 3 rows, 3 columns, 2 diagonals. -/
def WINNING_LINES : List (Nat × Nat × Nat) :=
  [(0, 1, 2), (3, 4, 5), (6, 7, 8),
   (0, 3, 6), (1, 4, 7), (2, 5, 8),
   (0, 4, 8), (2, 4, 6)]

/-- Result of check_winner: a winning player, or the Python string Draw. -/
inductive Winner : Type where
  | player : Player → Winner
  | draw : Winner
deriving DecidableEq, Repr

/-- One iteration of the loop of check_winner: the winner along a single
line, when all three of its cells hold the same non-blank mark. -/
def line_mark (board : Board) (l : Nat × Nat × Nat) : Option Player :=
  let a := cellAt board l.1
  let b := cellAt board l.2.1
  let c := cellAt board l.2.2
  if a = b ∧ b = c ∧ a ≠ Cell.E then
    match a with
    | Cell.X => some Player.X
    | Cell.O => some Player.O
    | Cell.E => none
  else none

/-- check_winner from heuristics.py: the first fully marked line wins;
a full board with no winner is a draw; otherwise the game is ongoing
(the Python return value None is modelled by none). -/
def check_winner (board : Board) : Option Winner :=
  match WINNING_LINES.findSome? (line_mark board) with
  | some p => some (Winner.player p)
  | none => if Cell.E ∈ board then none else some Winner.draw

/-- get_opponent from minmax.py (and the inline opponent computation of
heuristics.py, which is the same function). -/
def get_opponent : Player → Player
  | .X => .O
  | .O => .X

/-- h1 from heuristics.py: 1 when the root player has won, -1 when the
other player has won, 0 on a draw or an ongoing game. -/
def h1 (board : Board) (root_player : Player) : Int :=
  match check_winner board with
  | some (.player p) => if p = root_player then 1 else -1
  | _ => 0

/-- Three cells of one line, as read by the counting loop of h2. -/
def line_cells (board : Board) (l : Nat × Nat × Nat) : Cell × Cell × Cell :=
  (cellAt board l.1, cellAt board l.2.1, cellAt board l.2.2)

/-- Mark counts of three cells: root player marks, opponent marks and
blank cells. -/
def counts3 (t : Cell × Cell × Cell) (root_player : Player) : Nat × Nat × Nat :=
  ([t.1, t.2.1, t.2.2].count root_player.cell,
   [t.1, t.2.1, t.2.2].count (get_opponent root_player).cell,
   [t.1, t.2.1, t.2.2].count Cell.E)

/-- Per-line mark counts of h2: root player marks, opponent marks and
blank cells on one line. -/
def line_counts (board : Board) (root_player : Player) (l : Nat × Nat × Nat) :
    Nat × Nat × Nat :=
  counts3 (line_cells board l) root_player

/-- Condition of h2 for a line to count toward m, the root player's
possible lines: no opponent mark, and a root mark or a fully blank line. -/
def m_cond (board : Board) (root_player : Player) (l : Nat × Nat × Nat) : Bool :=
  let rc := (line_counts board root_player l).1
  let oc := (line_counts board root_player l).2.1
  let ec := (line_counts board root_player l).2.2
  decide (oc = 0 ∧ (0 < rc ∨ ec = 3))

/-- Condition of h2 for a line to count toward o, the opponent's possible
lines: no root mark, and an opponent mark or a fully blank line. -/
def o_cond (board : Board) (root_player : Player) (l : Nat × Nat × Nat) : Bool :=
  let rc := (line_counts board root_player l).1
  let oc := (line_counts board root_player l).2.1
  let ec := (line_counts board root_player l).2.2
  decide (rc = 0 ∧ (0 < oc ∨ ec = 3))

/-- Counting loop of h2: the pair (m, o) of possible-line counts. -/
def h2_counts (board : Board) (root_player : Player) : Int × Int :=
  WINNING_LINES.foldl
    (fun mo l =>
      (if m_cond board root_player l then mo.1 + 1 else mo.1,
       if o_cond board root_player l then mo.2 + 1 else mo.2))
    (0, 0)

/-- h2 from heuristics.py: 100 / -100 / 0 on terminal positions, and
m - o (possible-line difference) on ongoing positions. -/
def h2 (board : Board) (root_player : Player) : Int :=
  match check_winner board with
  | some (.player p) => if p = root_player then 100 else -100
  | some .draw => 0
  | none => (h2_counts board root_player).1 - (h2_counts board root_player).2

/-!
Search engine from minmax.py.  Both recursive searches are embedded with
an explicit fuel parameter: every recursive call fills one blank cell, so
the recursion depth is bounded by the number of blank cells, which is at
most the board length; the top-level wrappers pass the board length as
fuel, which therefore never runs out.  The Python search depth may be any
integer (get_best_move decrements it even when it is 0), so depth is
modelled as Int exactly as in the source.
-/

/-- get_moves from minmax.py: indices of the blank cells, in ascending
order as produced by the Python enumerate loop. -/
def get_moves (board : Board) : List Nat :=
  (board.enum.filter (fun ic => decide (ic.2 = Cell.E))).map Prod.fst

/-- make_move from minmax.py: copy the board with one cell replaced. -/
def make_move (board : Board) (pos : Nat) (player : Player) : Board :=
  board.set pos player.cell

/-- Maximizing loop of minimax: fold the children, tracking max_eval and
the accumulated node count. -/
def mmLoopMax (recur : Board → EInt × Nat) (board : Board) (player : Player) :
    List Nat → EInt → Nat → EInt × Nat
  | [], max_eval, nodes => (max_eval, nodes)
  | mv :: rest, max_eval, nodes =>
    let r := recur (make_move board mv player)
    mmLoopMax recur board player rest (EInt.maxE max_eval r.1) (nodes + r.2)

/-- Minimizing loop of minimax: fold the children, tracking min_eval and
the accumulated node count. -/
def mmLoopMin (recur : Board → EInt × Nat) (board : Board) (player : Player) :
    List Nat → EInt → Nat → EInt × Nat
  | [], min_eval, nodes => (min_eval, nodes)
  | mv :: rest, min_eval, nodes =>
    let r := recur (make_move board mv player)
    mmLoopMin recur board player rest (EInt.minE min_eval r.1) (nodes + r.2)

/-- minimax from minmax.py, with fuel.  Leaf positions (depth 0, decided
game, or no blank cell) score as the heuristic with node count 1;
otherwise the children are folded with max (root player to move) or min
(opponent to move), node count starting at 1 for the current node. -/
def minimaxF (h : Board → Player → Int) (root_player : Player) :
    Nat → Board → Player → Int → EInt × Nat
  | 0, board, _, _ => (.fin (h board root_player), 1)
  | fuel + 1, board, player, depth =>
    if depth = 0 ∨ (check_winner board).isSome then
      (.fin (h board root_player), 1)
    else
      let moves := get_moves board
      if moves = [] then (.fin (h board root_player), 1)
      else if player = root_player then
        mmLoopMax (fun nb => minimaxF h root_player fuel nb (get_opponent player) (depth - 1))
          board player moves .negInf 1
      else
        mmLoopMin (fun nb => minimaxF h root_player fuel nb (get_opponent player) (depth - 1))
          board player moves .posInf 1

/-- minimax from minmax.py at its natural fuel. -/
def minimax (board : Board) (player : Player) (depth : Int) (root_player : Player)
    (h : Board → Player → Int) : EInt × Nat :=
  minimaxF h root_player board.length board player depth

/-- Maximizing loop of alphabeta: like the minimax loop but threading
alpha and breaking out as soon as beta is at most alpha. -/
def abLoopMax (recur : Board → EInt → EInt → EInt × Nat) (board : Board)
    (player : Player) (beta : EInt) :
    List Nat → EInt → EInt → Nat → EInt × Nat
  | [], max_eval, _alpha, nodes => (max_eval, nodes)
  | mv :: rest, max_eval, alpha, nodes =>
    let r := recur (make_move board mv player) alpha beta
    let max_eval2 := EInt.maxE max_eval r.1
    let alpha2 := EInt.maxE alpha r.1
    let nodes2 := nodes + r.2
    if EInt.ble beta alpha2 then (max_eval2, nodes2)
    else abLoopMax recur board player beta rest max_eval2 alpha2 nodes2

/-- Minimizing loop of alphabeta: threading beta and breaking out as soon
as beta is at most alpha. -/
def abLoopMin (recur : Board → EInt → EInt → EInt × Nat) (board : Board)
    (player : Player) (alpha : EInt) :
    List Nat → EInt → EInt → Nat → EInt × Nat
  | [], min_eval, _beta, nodes => (min_eval, nodes)
  | mv :: rest, min_eval, beta, nodes =>
    let r := recur (make_move board mv player) alpha beta
    let min_eval2 := EInt.minE min_eval r.1
    let beta2 := EInt.minE beta r.1
    let nodes2 := nodes + r.2
    if EInt.ble beta2 alpha then (min_eval2, nodes2)
    else abLoopMin recur board player alpha rest min_eval2 beta2 nodes2

/-- alphabeta from minmax.py, with fuel: same leaf rule as minimax, and
the pruned maximizing and minimizing loops otherwise. -/
def alphabetaF (h : Board → Player → Int) (root_player : Player) :
    Nat → Board → Player → Int → EInt → EInt → EInt × Nat
  | 0, board, _, _, _, _ => (.fin (h board root_player), 1)
  | fuel + 1, board, player, depth, alpha, beta =>
    if depth = 0 ∨ (check_winner board).isSome then
      (.fin (h board root_player), 1)
    else
      let moves := get_moves board
      if moves = [] then (.fin (h board root_player), 1)
      else if player = root_player then
        abLoopMax (fun nb a b => alphabetaF h root_player fuel nb (get_opponent player) (depth - 1) a b)
          board player beta moves .negInf alpha 1
      else
        abLoopMin (fun nb a b => alphabetaF h root_player fuel nb (get_opponent player) (depth - 1) a b)
          board player alpha moves .posInf beta 1

/-- alphabeta from minmax.py at its natural fuel. -/
def alphabeta (board : Board) (player : Player) (depth : Int) (alpha beta : EInt)
    (root_player : Player) (h : Board → Player → Int) : EInt × Nat :=
  alphabetaF h root_player board.length board player depth alpha beta

instance {ε α : Type} [DecidableEq ε] [DecidableEq α] : DecidableEq (Except ε α) :=
  fun a b =>
    match a, b with
    | .ok a, .ok b => decidable_of_iff (a = b) (by simp)
    | .error a, .error b => decidable_of_iff (a = b) (by simp)
    | .ok _, .error _ => isFalse (by simp)
    | .error _, .ok _ => isFalse (by simp)

/-- One candidate evaluation of get_best_move: the selected search run on
the board with the candidate move applied, the opponent to move, the depth
decremented, the root player fixed as X.  An unrecognized algorithm name
gives none, which the selector loop turns into the raised ValueError. -/
def search_child (board : Board) (player : Player) (depth : Int)
    (algorithm : String) (h : Board → Player → Int) (mv : Nat) :
    Option (EInt × Nat) :=
  let new_board := make_move board mv player
  let opponent := get_opponent player
  if algorithm = "minimax" then
    some (minimax new_board opponent (depth - 1) Player.X h)
  else if algorithm = "alphabeta" then
    some (alphabeta new_board opponent (depth - 1) .negInf .posInf Player.X h)
  else none

/-- Candidate loop of get_best_move: evaluate each candidate move, keep
the strictly better one (maximizing when the mover is X, minimizing when
the mover is O), sum the node counts, and fail on an unknown algorithm. -/
def gbmLoop (board : Board) (player : Player) (depth : Int) (algorithm : String)
    (h : Board → Player → Int) (is_maximizing : Bool) :
    List Nat → Option Nat → EInt → Nat → Except String (Option Nat × Nat)
  | [], best_move, _best_value, total_nodes => .ok (best_move, total_nodes)
  | mv :: rest, best_move, best_value, total_nodes =>
    match search_child board player depth algorithm h mv with
    | none => .error ("Unknown algorithm: " ++ algorithm)
    | some r =>
      let total2 := total_nodes + r.2
      if is_maximizing then
        if EInt.blt best_value r.1 then
          gbmLoop board player depth algorithm h is_maximizing rest (some mv) r.1 total2
        else
          gbmLoop board player depth algorithm h is_maximizing rest best_move best_value total2
      else
        if EInt.blt r.1 best_value then
          gbmLoop board player depth algorithm h is_maximizing rest (some mv) r.1 total2
        else
          gbmLoop board player depth algorithm h is_maximizing rest best_move best_value total2

/-- get_best_move from minmax.py.  With no blank cell it returns the
sentinel (none, 0); otherwise it runs the candidate loop with the root
player fixed as X, so that X maximizes and O minimizes, each starting
from the corresponding infinity.  The Python ValueError raised on an
unknown algorithm is modelled by the error branch of Except. -/
def get_best_move (board : Board) (player : Player) (depth : Int)
    (algorithm : String) (h : Board → Player → Int) :
    Except String (Option Nat × Nat) :=
  let moves := get_moves board
  if moves = [] then .ok (none, 0)
  else
    gbmLoop board player depth algorithm h (decide (player = Player.X)) moves
      none (if player = Player.X then .negInf else .posInf) 0

/-- Move component of get_best_move, when it returns normally. -/
def chosen_move (board : Board) (player : Player) (depth : Int)
    (algorithm : String) (h : Board → Player → Int) : Option Nat :=
  match get_best_move board player depth algorithm h with
  | .ok r => r.1
  | .error _ => none

/-- Self-play driver for the end-to-end claim: repeatedly play the move
chosen by get_best_move at full depth (the number of blank cells),
alternating players. -/
def play (algorithm : String) (h : Board → Player → Int) :
    Nat → Board → Player → Board
  | 0, board, _ => board
  | k + 1, board, player =>
    match chosen_move board player ((get_moves board).length : Int) algorithm h with
    | none => board
    | some mv => play algorithm h k (make_move board mv player) (get_opponent player)

/-- The empty 9-cell board. -/
def empty_board : Board := List.replicate 9 Cell.E



/-!
Fast evaluator.  The end-to-end self-play claim needs the search to be
evaluated inside proofs on a six-figure number of positions, which the
list-based embedding above is too slow for under kernel reduction.  The
functions below are a second implementation of the same search on
bitboard state (one mark mask per player, bit i for cell i), written with
raw Nat primitives; they are proved extensionally equal to the faithful
embedding and are used only to discharge that computation.
-/

/-- Bits of this table: bit m is set when mask m contains a full line. -/
def WXTAB : Nat := 13407807929942597099574013255132872028739945207506855185984536220990031079651139828398970461379756263750237762468915789768244935419011274038663501414695040

/-- Player equality as a raw Boolean matcher. -/
def bplayerBeq : Player → Player → Bool
  | .X, .X => true
  | .O, .O => true
  | _, _ => false

/-- Test for the integer zero as a raw matcher. -/
def bintZ : Int → Bool
  | .ofNat 0 => true
  | _ => false

/-- Line-by-line winner scan on masks, in the order of WINNING_LINES,
returning 1 for an X win, 2 for an O win, 3 for a draw, 0 otherwise. -/
def fwinScan (xm om : Nat) : Nat :=
  cond (Nat.beq (Nat.land xm 7) 7) 1 <| cond (Nat.beq (Nat.land om 7) 7) 2 <|
  cond (Nat.beq (Nat.land xm 56) 56) 1 <| cond (Nat.beq (Nat.land om 56) 56) 2 <|
  cond (Nat.beq (Nat.land xm 448) 448) 1 <| cond (Nat.beq (Nat.land om 448) 448) 2 <|
  cond (Nat.beq (Nat.land xm 73) 73) 1 <| cond (Nat.beq (Nat.land om 73) 73) 2 <|
  cond (Nat.beq (Nat.land xm 146) 146) 1 <| cond (Nat.beq (Nat.land om 146) 146) 2 <|
  cond (Nat.beq (Nat.land xm 292) 292) 1 <| cond (Nat.beq (Nat.land om 292) 292) 2 <|
  cond (Nat.beq (Nat.land xm 273) 273) 1 <| cond (Nat.beq (Nat.land om 273) 273) 2 <|
  cond (Nat.beq (Nat.land xm 84) 84) 1 <| cond (Nat.beq (Nat.land om 84) 84) 2 <|
  cond (Nat.beq (Nat.lor xm om) 511) 3 0

/-- Winner on masks: a table lookup short-circuits the common case where
neither player holds a line, and the explicit scan is used otherwise. -/
def fwinF (xm om : Nat) : Nat :=
  cond (Nat.beq (Nat.lor (Nat.land (Nat.shiftRight WXTAB xm) 1)
      (Nat.land (Nat.shiftRight WXTAB om) 1)) 0)
    (cond (Nat.beq (Nat.lor xm om) 511) 3 0)
    (fwinScan xm om)

/-- Fast h1 on masks. -/
def fh1F (xm om : Nat) (root : Player) : Int :=
  match fwinF xm om, root with
  | 1, .X => 1
  | 1, .O => -1
  | 2, .X => -1
  | 2, .O => 1
  | _, _ => 0

/-- Number of lines free of the marks of mask bm. -/
def fh2cnt (bm : Nat) : Nat :=
  (cond (Nat.beq (Nat.land bm 7) 0) 1 0) + (cond (Nat.beq (Nat.land bm 56) 0) 1 0) +
  (cond (Nat.beq (Nat.land bm 448) 0) 1 0) + (cond (Nat.beq (Nat.land bm 73) 0) 1 0) +
  (cond (Nat.beq (Nat.land bm 146) 0) 1 0) + (cond (Nat.beq (Nat.land bm 292) 0) 1 0) +
  (cond (Nat.beq (Nat.land bm 273) 0) 1 0) + (cond (Nat.beq (Nat.land bm 84) 0) 1 0)

/-- Fast h2 on masks. -/
def fh2F (xm om : Nat) (root : Player) : Int :=
  match fwinF xm om, root with
  | 1, .X => 100
  | 1, .O => -100
  | 2, .X => -100
  | 2, .O => 100
  | 3, _ => 0
  | _, .X => Int.sub (Int.ofNat (fh2cnt om)) (Int.ofNat (fh2cnt xm))
  | _, .O => Int.sub (Int.ofNat (fh2cnt xm)) (Int.ofNat (fh2cnt om))

/-- Free cells of an occupancy mask, indices ascending; the counter k
runs from 9 down to 0 and examines cell 9 - k. -/
def fmovesGo (occ : Nat) : Nat → List Nat
  | 0 => []
  | k + 1 =>
    match 9 - (k + 1) with
    | i => cond (Nat.beq (Nat.land (Nat.shiftRight occ i) 1) 0)
        (i :: fmovesGo occ k) (fmovesGo occ k)

/-- Free cells of an occupancy mask. -/
def fmoves (occ : Nat) : List Nat := fmovesGo occ 9

/-- Fast maximizing loop, mirroring the pruned maximizing loop but on
masks and without node counting; pX tells whether the mover is X. -/
def floopMax (recur : Nat → Nat → EInt → EInt → EInt) (xm om : Nat) (pX : Bool)
    (beta : EInt) : List Nat → EInt → EInt → EInt
  | [], max_eval, _alpha => max_eval
  | mv :: rest, max_eval, alpha =>
    match cond pX (recur (Nat.lor xm (Nat.shiftLeft 1 mv)) om alpha beta)
                  (recur xm (Nat.lor om (Nat.shiftLeft 1 mv)) alpha beta) with
    | r =>
      cond (EInt.ble beta (EInt.maxE alpha r))
        (EInt.maxE max_eval r)
        (floopMax recur xm om pX beta rest (EInt.maxE max_eval r) (EInt.maxE alpha r))

/-- Fast minimizing loop. -/
def floopMin (recur : Nat → Nat → EInt → EInt → EInt) (xm om : Nat) (pX : Bool)
    (alpha : EInt) : List Nat → EInt → EInt → EInt
  | [], min_eval, _beta => min_eval
  | mv :: rest, min_eval, beta =>
    match cond pX (recur (Nat.lor xm (Nat.shiftLeft 1 mv)) om alpha beta)
                  (recur xm (Nat.lor om (Nat.shiftLeft 1 mv)) alpha beta) with
    | r =>
      cond (EInt.ble (EInt.minE beta r) alpha)
        (EInt.minE min_eval r)
        (floopMin recur xm om pX alpha rest (EInt.minE min_eval r) (EInt.minE beta r))

/-- Fast alphabeta on masks: same recursion as the faithful embedding,
returning the score only. -/
def ffabF (fh : Nat → Nat → Player → Int) (root_player : Player) :
    Nat → Nat → Nat → Player → Int → EInt → EInt → EInt
  | 0, xm, om, _, _, _, _ => .fin (fh xm om root_player)
  | fuel + 1, xm, om, player, depth, alpha, beta =>
    cond (bintZ depth) (.fin (fh xm om root_player)) <|
    match fwinF xm om with
    | Nat.succ _ => .fin (fh xm om root_player)
    | 0 =>
      match fmoves (Nat.lor xm om) with
      | [] => .fin (fh xm om root_player)
      | mv :: rest =>
        cond (bplayerBeq player root_player)
          (floopMax (fun x2 o2 a b => ffabF fh root_player fuel x2 o2 (get_opponent player) (Int.sub depth 1) a b)
            xm om (bplayerBeq player Player.X) beta (mv :: rest) .negInf alpha)
          (floopMin (fun x2 o2 a b => ffabF fh root_player fuel x2 o2 (get_opponent player) (Int.sub depth 1) a b)
            xm om (bplayerBeq player Player.X) alpha (mv :: rest) .posInf beta)

/-- Fast candidate loop of the move selector, on masks, tracking the
chosen move only. -/
def fgbmLoopF (fh : Nat → Nat → Player → Int) (xm om : Nat) (player : Player)
    (depth : Int) (is_max : Bool) : List Nat → Option Nat → EInt → Option Nat
  | [], best_move, _best_value => best_move
  | mv :: rest, best_move, best_value =>
    match cond (bplayerBeq player Player.X)
            (ffabF fh Player.X 9 (Nat.lor xm (Nat.shiftLeft 1 mv)) om (get_opponent player) (Int.sub depth 1) .negInf .posInf)
            (ffabF fh Player.X 9 xm (Nat.lor om (Nat.shiftLeft 1 mv)) (get_opponent player) (Int.sub depth 1) .negInf .posInf) with
    | r =>
      cond is_max
        (cond (EInt.blt best_value r)
          (fgbmLoopF fh xm om player depth is_max rest (some mv) r)
          (fgbmLoopF fh xm om player depth is_max rest best_move best_value))
        (cond (EInt.blt r best_value)
          (fgbmLoopF fh xm om player depth is_max rest (some mv) r)
          (fgbmLoopF fh xm om player depth is_max rest best_move best_value))

/-- Fast move selector on masks, pruned search only, returning the
chosen move. -/
def fgbmF (fh : Nat → Nat → Player → Int) (xm om : Nat) (player : Player)
    (depth : Int) : Option Nat :=
  match fmoves (Nat.lor xm om) with
  | [] => none
  | mv :: rest =>
    fgbmLoopF fh xm om player depth (bplayerBeq player Player.X) (mv :: rest) none
      (cond (bplayerBeq player Player.X) .negInf .posInf)

/-- Fast self-play driver on masks. -/
def fplayF (fh : Nat → Nat → Player → Int) : Nat → Nat → Nat → Player → Nat × Nat
  | 0, xm, om, _ => (xm, om)
  | k + 1, xm, om, player =>
    match fgbmF fh xm om player (Int.ofNat (fmoves (Nat.lor xm om)).length) with
    | none => (xm, om)
    | some mv =>
      fplayF fh k (cond (bplayerBeq player Player.X) (Nat.lor xm (Nat.shiftLeft 1 mv)) xm)
        (cond (bplayerBeq player Player.X) om (Nat.lor om (Nat.shiftLeft 1 mv))) (get_opponent player)

/-- Outcome of the fast self-play game from the empty board. -/
def ffinal (fh : Nat → Nat → Player → Int) : Nat :=
  match fplayF fh 9 0 0 Player.X with
  | (x, o) => fwinF x o

/-- X-mark mask of a board, bit i for cell i. -/
def encX : Board → Nat
  | [] => 0
  | c :: r => (match c with | Cell.X => 1 | _ => 0) + 2 * encX r

/-- O-mark mask of a board, bit i for cell i. -/
def encO : Board → Nat
  | [] => 0
  | c :: r => (match c with | Cell.O => 1 | _ => 0) + 2 * encO r

/-- Numeric code of a check_winner outcome, as produced by fwinF. -/
def wcode : Option Winner → Nat
  | some (.player .X) => 1
  | some (.player .O) => 2
  | some .draw => 3
  | none => 0

/-!
Claims about the heuristics: the worked example of h2 and the per-line
exclusivity of its two counts.
-/

/-- C4 counterexample: on the documented example board the code computes
neither the counts (4, 6) nor the score -2 claimed by the specification. -/
theorem h2_example_counterexample :
    ¬ (h2_counts [Cell.X, Cell.O, Cell.E, Cell.E, Cell.E, Cell.E, Cell.E, Cell.E, Cell.E] Player.X = (4, 6) ∧
       h2 [Cell.X, Cell.O, Cell.E, Cell.E, Cell.E, Cell.E, Cell.E, Cell.E, Cell.E] Player.X = -2) := by
  decide

/-- C4 amended: on the example board with root player X the counting loop
of h2 computes m = 6 and o = 5, and h2 returns 1. -/
theorem h2_example_eval :
    h2_counts [Cell.X, Cell.O, Cell.E, Cell.E, Cell.E, Cell.E, Cell.E, Cell.E, Cell.E] Player.X = (6, 5) ∧
    h2 [Cell.X, Cell.O, Cell.E, Cell.E, Cell.E, Cell.E, Cell.E, Cell.E, Cell.E] Player.X = 1 := by
  decide

/-- C5 counterexample: on a non-terminal board the fully blank middle row
counts toward both m and o in the counting loop of h2. -/
theorem h2_line_both_counterexample :
    check_winner [Cell.X, Cell.O, Cell.E, Cell.E, Cell.E, Cell.E, Cell.E, Cell.E, Cell.E] = none ∧
    (3, 4, 5) ∈ WINNING_LINES ∧
    m_cond [Cell.X, Cell.O, Cell.E, Cell.E, Cell.E, Cell.E, Cell.E, Cell.E, Cell.E] Player.X (3, 4, 5) = true ∧
    o_cond [Cell.X, Cell.O, Cell.E, Cell.E, Cell.E, Cell.E, Cell.E, Cell.E, Cell.E] Player.X (3, 4, 5) = true := by
  decide

/-- C5 amended: a line counts toward both m and o in the counting loop of
h2 exactly when all three of its cells are blank; in particular a line
holding any mark counts toward at most one of the two. -/
theorem h2_line_both_iff (board : Board) (root_player : Player) (l : Nat × Nat × Nat) :
    (m_cond board root_player l = true ∧ o_cond board root_player l = true) ↔
      (line_counts board root_player l).2.2 = 3 := by
  have h : ∀ (root : Player) (t : Cell × Cell × Cell),
      ((decide ((counts3 t root).2.1 = 0 ∧ (0 < (counts3 t root).1 ∨ (counts3 t root).2.2 = 3)) = true) ∧
       (decide ((counts3 t root).1 = 0 ∧ (0 < (counts3 t root).2.1 ∨ (counts3 t root).2.2 = 3)) = true)) ↔
      (counts3 t root).2.2 = 3 := by decide
  exact h root_player (line_cells board l)

/-!
Leaf behaviour of both searches.
-/

theorem minimaxF_leaf (h : Board → Player → Int) (root_player : Player)
    (fuel : Nat) (board : Board) (player : Player) (depth : Int)
    (hleaf : depth = 0 ∨ (check_winner board).isSome ∨ get_moves board = []) :
    minimaxF h root_player fuel board player depth = (.fin (h board root_player), 1) := by
  cases fuel with
  | zero => simp [minimaxF]
  | succ n =>
    by_cases hc : depth = 0 ∨ (check_winner board).isSome
    · simp [minimaxF, hc]
    · have hm : get_moves board = [] := by
        rcases hleaf with h0 | hw | hm
        · exact absurd (Or.inl h0) hc
        · exact absurd (Or.inr hw) hc
        · exact hm
      simp [minimaxF, hc, hm]

theorem alphabetaF_leaf (h : Board → Player → Int) (root_player : Player)
    (fuel : Nat) (board : Board) (player : Player) (depth : Int) (alpha beta : EInt)
    (hleaf : depth = 0 ∨ (check_winner board).isSome ∨ get_moves board = []) :
    alphabetaF h root_player fuel board player depth alpha beta =
      (.fin (h board root_player), 1) := by
  cases fuel with
  | zero => simp [alphabetaF]
  | succ n =>
    by_cases hc : depth = 0 ∨ (check_winner board).isSome
    · simp [alphabetaF, hc]
    · have hm : get_moves board = [] := by
        rcases hleaf with h0 | hw | hm
        · exact absurd (Or.inl h0) hc
        · exact absurd (Or.inr hw) hc
        · exact hm
      simp [alphabetaF, hc, hm]

/-- C6: on a leaf input (depth 0, decided game, or no blank cell) both
searches return exactly the heuristic score of the position for the root
player, paired with a node count of exactly 1. -/
theorem search_leaf_eval (board : Board) (player : Player) (depth : Int)
    (root_player : Player) (h : Board → Player → Int) (alpha beta : EInt)
    (hleaf : depth = 0 ∨ (check_winner board).isSome ∨ get_moves board = []) :
    minimax board player depth root_player h = (.fin (h board root_player), 1) ∧
    alphabeta board player depth alpha beta root_player h = (.fin (h board root_player), 1) :=
  ⟨minimaxF_leaf h root_player board.length board player depth hleaf,
   alphabetaF_leaf h root_player board.length board player depth alpha beta hleaf⟩

/-- C6 witness: the leaf rule evaluated at depth 0 on the empty board. -/
theorem search_leaf_eval_witness :
    minimax empty_board Player.X 0 Player.X h1 = (.fin (h1 empty_board Player.X), 1) ∧
    alphabeta empty_board Player.X 0 EInt.negInf EInt.posInf Player.X h1 =
      (.fin (h1 empty_board Player.X), 1) :=
  search_leaf_eval empty_board Player.X 0 Player.X h1 EInt.negInf EInt.posInf (Or.inl rfl)

/-!
Characterization of get_moves: the ascending list of blank-cell indices.
The recursive form movesRec is the proof-side specification that both
get_moves and the fast fmoves are related to.
-/

/-- Blank-cell indices of a board, the cursor starting at n. -/
def movesRec : Board → Nat → List Nat
  | [], _ => []
  | Cell.E :: r, n => n :: movesRec r (n + 1)
  | _ :: r, n => movesRec r (n + 1)

theorem movesRec_cons (c : Cell) (r : Board) (n : Nat) :
    movesRec (c :: r) n
      = if c = Cell.E then n :: movesRec r (n + 1) else movesRec r (n + 1) := by
  cases c <;> simp [movesRec]

theorem get_moves_aux (board : Board) : ∀ n : Nat,
    ((List.enumFrom n board).filter (fun ic => decide (ic.2 = Cell.E))).map Prod.fst
      = movesRec board n := by
  induction board with
  | nil => intro n; rfl
  | cons c r ih =>
    intro n
    rw [List.enumFrom_cons, List.filter_cons, movesRec_cons]
    by_cases hc : c = Cell.E
    · simp [hc, ih (n + 1)]
    · simp [hc, ih (n + 1)]

theorem get_moves_eq_movesRec (board : Board) : get_moves board = movesRec board 0 := by
  have h := get_moves_aux board 0
  simpa [get_moves, List.enum] using h

theorem mem_movesRec (board : Board) : ∀ (n mv : Nat),
    mv ∈ movesRec board n ↔ ∃ j, j < board.length ∧ cellAt board j = Cell.E ∧ mv = n + j := by
  induction board with
  | nil => intro n mv; simp [movesRec]
  | cons c r ih =>
    intro n mv
    rw [movesRec_cons]
    by_cases hc : c = Cell.E
    · subst hc
      rw [if_pos rfl, List.mem_cons, ih (n + 1) mv]
      constructor
      · rintro (h0 | ⟨j, hj, hcell, hmv⟩)
        · exact ⟨0, Nat.succ_pos _, rfl, by omega⟩
        · exact ⟨j + 1, by simp [List.length_cons]; omega, hcell, by omega⟩
      · rintro ⟨j, hj, hcell, hmv⟩
        cases j with
        | zero => exact Or.inl (by omega)
        | succ j =>
          refine Or.inr ⟨j, ?_, hcell, by omega⟩
          simp [List.length_cons] at hj
          omega
    · rw [if_neg hc, ih (n + 1) mv]
      constructor
      · rintro ⟨j, hj, hcell, hmv⟩
        exact ⟨j + 1, by simp [List.length_cons]; omega, hcell, by omega⟩
      · rintro ⟨j, hj, hcell, hmv⟩
        cases j with
        | zero => exact absurd hcell hc
        | succ j =>
          refine ⟨j, ?_, hcell, by omega⟩
          simp [List.length_cons] at hj
          omega

theorem mem_get_moves {board : Board} {mv : Nat} :
    mv ∈ get_moves board ↔ mv < board.length ∧ cellAt board mv = Cell.E := by
  rw [get_moves_eq_movesRec, mem_movesRec]
  constructor
  · rintro ⟨j, hj, hcell, hmv⟩
    exact ⟨by omega, by rwa [show mv = j by omega]⟩
  · rintro ⟨hlt, hcell⟩
    exact ⟨mv, hlt, hcell, by omega⟩

theorem movesRec_ge (board : Board) : ∀ n mv, mv ∈ movesRec board n → n ≤ mv := by
  intro n mv h
  rw [mem_movesRec] at h
  obtain ⟨j, _, _, hmv⟩ := h
  omega

theorem movesRec_pairwise (board : Board) : ∀ n, (movesRec board n).Pairwise (· < ·) := by
  induction board with
  | nil => intro n; simp [movesRec]
  | cons c r ih =>
    intro n
    rw [movesRec_cons]
    by_cases hc : c = Cell.E
    · rw [if_pos hc]
      refine List.Pairwise.cons ?_ (ih (n + 1))
      intro mv hmv
      have := movesRec_ge r (n + 1) mv hmv
      omega
    · rw [if_neg hc]
      exact ih (n + 1)

theorem get_moves_pairwise (board : Board) : (get_moves board).Pairwise (· < ·) := by
  rw [get_moves_eq_movesRec]
  exact movesRec_pairwise board 0

theorem get_moves_nil_of_full {board : Board} (hfull : Cell.E ∉ board) :
    get_moves board = [] := by
  rw [List.eq_nil_iff_forall_not_mem]
  intro mv hmv
  rw [mem_get_moves] at hmv
  have : Cell.E ∈ board := by
    have hg : board.getD mv Cell.E = Cell.E := hmv.2
    have hlt : mv < board.length := hmv.1
    rw [List.getD_eq_getElem board Cell.E hlt] at hg
    rw [← hg]
    exact List.getElem_mem hlt
  exact absurd this hfull

/-!
Error handling and terminal behaviour of the move selector.
-/

/-- C8: on a board with no blank cell the move selector returns the
sentinel (none, 0) for every player, depth, algorithm name and heuristic. -/
theorem get_best_move_full_board (board : Board) (player : Player) (depth : Int)
    (algorithm : String) (h : Board → Player → Int) (hfull : Cell.E ∉ board) :
    get_best_move board player depth algorithm h = .ok (none, 0) := by
  have hm := get_moves_nil_of_full hfull
  simp [get_best_move, hm]

/-- C8 witness: the sentinel on a full board. -/
theorem get_best_move_full_board_witness :
    get_best_move [Cell.X, Cell.O, Cell.X, Cell.O, Cell.X, Cell.O, Cell.X, Cell.O, Cell.X]
      Player.O 4 "minimax" h2 = .ok (none, 0) :=
  get_best_move_full_board _ Player.O 4 "minimax" h2 (by decide)

/-- C9 counterexample: on a board with no blank cell an unknown algorithm
name does not raise; the selector returns the sentinel (none, 0) before
the algorithm name is ever inspected. -/
theorem unknown_algorithm_full_board :
    get_best_move [Cell.X, Cell.O, Cell.X, Cell.O, Cell.X, Cell.O, Cell.X, Cell.O, Cell.X]
      Player.X 3 "bogus" h1 = .ok (none, 0) ∧
    ∀ msg : String,
      get_best_move [Cell.X, Cell.O, Cell.X, Cell.O, Cell.X, Cell.O, Cell.X, Cell.O, Cell.X]
        Player.X 3 "bogus" h1 ≠ .error msg := by
  constructor
  · decide
  · intro msg hmsg
    have hok : get_best_move [Cell.X, Cell.O, Cell.X, Cell.O, Cell.X, Cell.O, Cell.X, Cell.O, Cell.X]
        Player.X 3 "bogus" h1 = .ok (none, 0) := by decide
    rw [hok] at hmsg
    exact absurd hmsg (by simp)

/-- C9 amended: on a board with at least one blank cell, an algorithm
name other than minimax and alphabeta makes the move selector fail with
the ValueError carrying the unknown-algorithm message. -/
theorem unknown_algorithm_error (board : Board) (player : Player) (depth : Int)
    (algorithm : String) (h : Board → Player → Int)
    (halg1 : algorithm ≠ "minimax") (halg2 : algorithm ≠ "alphabeta")
    (hmoves : get_moves board ≠ []) :
    get_best_move board player depth algorithm h
      = .error ("Unknown algorithm: " ++ algorithm) := by
  obtain ⟨mv, rest, hm⟩ : ∃ mv rest, get_moves board = mv :: rest := by
    cases hg : get_moves board with
    | nil => exact absurd hg hmoves
    | cons mv rest => exact ⟨mv, rest, rfl⟩
  simp [get_best_move, hm, gbmLoop, search_child, halg1, halg2]

/-- C9 amended witness: the unknown-algorithm failure on the empty board. -/
theorem unknown_algorithm_error_witness :
    get_best_move empty_board Player.X 9 "bogus" h1
      = .error ("Unknown algorithm: " ++ "bogus") :=
  unknown_algorithm_error empty_board Player.X 9 "bogus" h1 (by decide) (by decide)
    (by decide)

/-!
Extreme-value facts about EInt used throughout the search lemmas.
-/

theorem EInt.negInf_le (a : EInt) : EInt.negInf ≤ a := by
  cases a <;> rfl

theorem EInt.le_posInf (a : EInt) : a ≤ EInt.posInf := by
  cases a <;> rfl

/-!
Node-count comparison between the pruned and the exhaustive search.
-/

theorem mmLoopMax_nodes_ge (recur : Board → EInt × Nat) (board : Board)
    (player : Player) : ∀ (ms : List Nat) (acc : EInt) (n : Nat),
    n ≤ (mmLoopMax recur board player ms acc n).2 := by
  intro ms
  induction ms with
  | nil => intro acc n; exact le_refl n
  | cons mv rest ih =>
    intro acc n
    simp only [mmLoopMax]
    exact le_trans (Nat.le_add_right n _) (ih _ _)

theorem mmLoopMin_nodes_ge (recur : Board → EInt × Nat) (board : Board)
    (player : Player) : ∀ (ms : List Nat) (acc : EInt) (n : Nat),
    n ≤ (mmLoopMin recur board player ms acc n).2 := by
  intro ms
  induction ms with
  | nil => intro acc n; exact le_refl n
  | cons mv rest ih =>
    intro acc n
    simp only [mmLoopMin]
    exact le_trans (Nat.le_add_right n _) (ih _ _)

theorem abLoopMax_nodes_le (recur : Board → EInt → EInt → EInt × Nat)
    (recurM : Board → EInt × Nat) (board : Board) (player : Player) (beta : EInt)
    (hchild : ∀ nb a b, (recur nb a b).2 ≤ (recurM nb).2) :
    ∀ (ms : List Nat) (accA accM alpha : EInt) (nA nM : Nat), nA ≤ nM →
      (abLoopMax recur board player beta ms accA alpha nA).2
        ≤ (mmLoopMax recurM board player ms accM nM).2 := by
  intro ms
  induction ms with
  | nil => intro accA accM alpha nA nM hn; exact hn
  | cons mv rest ih =>
    intro accA accM alpha nA nM hn
    simp only [abLoopMax, mmLoopMax]
    have hstep : nA + (recur (make_move board mv player) alpha beta).2
        ≤ nM + (recurM (make_move board mv player)).2 :=
      Nat.add_le_add hn (hchild _ _ _)
    by_cases hcut : EInt.ble beta (EInt.maxE alpha (recur (make_move board mv player) alpha beta).1) = true
    · rw [if_pos hcut]
      exact le_trans hstep (mmLoopMax_nodes_ge recurM board player rest _ _)
    · rw [if_neg hcut]
      exact ih _ _ _ _ _ hstep

theorem abLoopMin_nodes_le (recur : Board → EInt → EInt → EInt × Nat)
    (recurM : Board → EInt × Nat) (board : Board) (player : Player) (alpha : EInt)
    (hchild : ∀ nb a b, (recur nb a b).2 ≤ (recurM nb).2) :
    ∀ (ms : List Nat) (accA accM beta : EInt) (nA nM : Nat), nA ≤ nM →
      (abLoopMin recur board player alpha ms accA beta nA).2
        ≤ (mmLoopMin recurM board player ms accM nM).2 := by
  intro ms
  induction ms with
  | nil => intro accA accM beta nA nM hn; exact hn
  | cons mv rest ih =>
    intro accA accM beta nA nM hn
    simp only [abLoopMin, mmLoopMin]
    have hstep : nA + (recur (make_move board mv player) alpha beta).2
        ≤ nM + (recurM (make_move board mv player)).2 :=
      Nat.add_le_add hn (hchild _ _ _)
    by_cases hcut : EInt.ble (EInt.minE beta (recur (make_move board mv player) alpha beta).1) alpha = true
    · rw [if_pos hcut]
      exact le_trans hstep (mmLoopMin_nodes_ge recurM board player rest _ _)
    · rw [if_neg hcut]
      exact ih _ _ _ _ _ hstep

theorem ab_mm_nodes (h : Board → Player → Int) (root_player : Player) :
    ∀ (fuel : Nat) (board : Board) (player : Player) (depth : Int) (alpha beta : EInt),
      (alphabetaF h root_player fuel board player depth alpha beta).2
        ≤ (minimaxF h root_player fuel board player depth).2 := by
  intro fuel
  induction fuel with
  | zero => intro board player depth alpha beta; exact le_refl 1
  | succ n ih =>
    intro board player depth alpha beta
    by_cases hc : depth = 0 ∨ (check_winner board).isSome
    · simp [alphabetaF, minimaxF, hc]
    · by_cases hm : get_moves board = []
      · simp [alphabetaF, minimaxF, hc, hm]
      · by_cases hp : player = root_player
        · simp only [alphabetaF, minimaxF, if_neg hc, hm, if_neg hm, if_pos hp]
          exact abLoopMax_nodes_le _ _ board player beta
            (fun nb a b => ih nb (get_opponent player) (depth - 1) a b)
            (get_moves board) _ _ alpha 1 1 (le_refl 1)
        · simp only [alphabetaF, minimaxF, if_neg hc, hm, if_neg hm, if_neg hp]
          exact abLoopMin_nodes_le _ _ board player alpha
            (fun nb a b => ih nb (get_opponent player) (depth - 1) a b)
            (get_moves board) _ _ beta 1 1 (le_refl 1)

/-- C2: for every position, player to move, depth, root player and
heuristic, the pruned search seeded with the infinite window visits at
most as many nodes as the exhaustive search. -/
theorem alphabeta_nodes_le_minimax (board : Board) (player : Player) (depth : Int)
    (root_player : Player) (h : Board → Player → Int) :
    (alphabeta board player depth .negInf .posInf root_player h).2
      ≤ (minimax board player depth root_player h).2 :=
  ab_mm_nodes h root_player board.length board player depth .negInf .posInf

/-!
Score equivalence of the pruned and the exhaustive search.  The invariant
is the classic fail-soft window property: inside the window the pruned
score is exact, outside it is a respectively one-sided bound.
-/

/-- Fail-soft relation between a pruned score v and the exhaustive score m
for the window (alpha, beta). -/
abbrev TripleProp (v m alpha beta : EInt) : Prop :=
  (v ≤ alpha → m ≤ v) ∧ (beta ≤ v → v ≤ m) ∧ (alpha < v → v < beta → v = m)

theorem TripleProp.refl (v alpha beta : EInt) : TripleProp v v alpha beta :=
  ⟨fun _ => le_refl v, fun _ => le_refl v, fun _ _ => rfl⟩

theorem mmLoopMax_value_ge (recur : Board → EInt × Nat) (board : Board)
    (player : Player) : ∀ (ms : List Nat) (acc : EInt) (n : Nat),
    acc ≤ (mmLoopMax recur board player ms acc n).1 := by
  intro ms
  induction ms with
  | nil => intro acc n; exact le_refl acc
  | cons mv rest ih =>
    intro acc n
    simp only [mmLoopMax, EInt.maxE_eq_max]
    exact le_trans (le_max_left _ _) (ih _ _)

theorem mmLoopMin_value_le (recur : Board → EInt × Nat) (board : Board)
    (player : Player) : ∀ (ms : List Nat) (acc : EInt) (n : Nat),
    (mmLoopMin recur board player ms acc n).1 ≤ acc := by
  intro ms
  induction ms with
  | nil => intro acc n; exact le_refl acc
  | cons mv rest ih =>
    intro acc n
    simp only [mmLoopMin, EInt.minE_eq_min]
    exact le_trans (ih _ _) (min_le_left _ _)

theorem abLoopMax_triple (recur : Board → EInt → EInt → EInt × Nat)
    (recurM : Board → EInt × Nat) (board : Board) (player : Player)
    (alpha0 beta : EInt) :
    ∀ (ms : List Nat) (accA accM alpha : EInt) (nA nM : Nat),
      (∀ mv ∈ ms, ∀ a : EInt, a < beta →
        TripleProp (recur (make_move board mv player) a beta).1
          (recurM (make_move board mv player)).1 a beta) →
      alpha = max alpha0 accA →
      alpha < beta →
      (accA ≤ alpha0 → accM ≤ accA) →
      (alpha0 < accA → accA = accM) →
      TripleProp (abLoopMax recur board player beta ms accA alpha nA).1
        (mmLoopMax recurM board player ms accM nM).1 alpha0 beta := by
  intro ms
  induction ms with
  | nil =>
    intro accA accM alpha nA nM hchild halpha hab r1 r3
    simp only [abLoopMax, mmLoopMax]
    refine ⟨r1, ?_, fun h1 _ => r3 h1⟩
    intro hba
    have hA : accA ≤ alpha := by rw [halpha]; exact le_max_right _ _
    exact absurd (lt_of_le_of_lt hA hab) (not_lt.mpr hba)
  | cons mv rest ih =>
    intro accA accM alpha nA nM hchild halpha hab r1 r3
    simp only [abLoopMax, mmLoopMax, EInt.maxE_eq_max]
    set r := recur (make_move board mv player) alpha beta with hr
    set rM := recurM (make_move board mv player) with hrM
    have htr : TripleProp r.1 rM.1 alpha beta :=
      hchild mv (List.mem_cons_self mv rest) alpha hab
    have hchild' : ∀ mv2 ∈ rest, ∀ a : EInt, a < beta →
        TripleProp (recur (make_move board mv2 player) a beta).1
          (recurM (make_move board mv2 player)).1 a beta :=
      fun mv2 hmem a ha => hchild mv2 (List.mem_cons_of_mem mv hmem) a ha
    by_cases hcut : EInt.ble beta (max alpha r.1) = true
    · rw [if_pos hcut]
      rw [EInt.ble_iff] at hcut
      refine ⟨?_, ?_, ?_⟩
      · intro hva
        have hA : accA ≤ alpha0 := le_trans (le_max_left _ _) hva
        have hE : r.1 ≤ alpha0 := le_trans (le_max_right _ _) hva
        have ha0 : alpha = alpha0 := by
          rw [halpha]
          exact max_eq_left hA
        have : max alpha r.1 = alpha0 := by
          rw [ha0]
          exact max_eq_left hE
        rw [this] at hcut
        exact absurd (lt_of_le_of_lt hcut (ha0 ▸ hab)) (lt_irrefl beta)
      · intro hbv
        have haccA : accA < beta := lt_of_le_of_lt (by rw [halpha]; exact le_max_right _ _) hab
        have hre : beta ≤ r.1 := by
          rcases le_max_iff.mp hbv with hc | hc
          · exact absurd (lt_of_le_of_lt hc haccA) (lt_irrefl beta)
          · exact hc
        have hvm : r.1 ≤ rM.1 := htr.2.1 hre
        have hv : max accA r.1 = r.1 := max_eq_right (le_trans haccA.le hre)
        rw [hv]
        exact le_trans hvm (le_trans (le_max_right accM rM.1)
          (mmLoopMax_value_ge recurM board player rest _ _))
      · intro _ h2
        rcases le_max_iff.mp hcut with hc | hc
        · exact absurd (lt_of_le_of_lt hc hab) (lt_irrefl beta)
        · exact absurd (lt_of_le_of_lt hc (lt_of_le_of_lt (le_max_right accA r.1) h2))
            (lt_irrefl beta)
    · rw [if_neg hcut]
      have hcut' : max alpha r.1 < beta := by
        have hbf : EInt.ble beta (max alpha r.1) = false := by
          cases hb : EInt.ble beta (max alpha r.1)
          · rfl
          · exact absurd hb hcut
        exact EInt.not_ble_iff.mp hbf
      refine ih (max accA r.1) (max accM rM.1) (max alpha r.1) (nA + r.2) (nM + rM.2)
        hchild' ?_ hcut' ?_ ?_
      · rw [halpha, max_assoc]
      · intro h
        have hA : accA ≤ alpha0 := le_trans (le_max_left _ _) h
        have hE : r.1 ≤ alpha0 := le_trans (le_max_right _ _) h
        have hEa : r.1 ≤ alpha := le_trans hE (by rw [halpha]; exact le_max_left _ _)
        have hm : rM.1 ≤ r.1 := htr.1 hEa
        exact max_le (le_trans (r1 hA) (le_max_left _ _)) (le_trans hm (le_max_right _ _))
      · intro h
        rcases le_total accA r.1 with hle | hle
        · rw [max_eq_right hle] at h ⊢
          rcases lt_or_le alpha r.1 with halt | hle2
          · have hevb : r.1 < beta := lt_of_le_of_lt (le_max_right alpha r.1) hcut'
            have heq : r.1 = rM.1 := htr.2.2 halt hevb
            have haccM : accM ≤ r.1 := by
              rcases le_or_lt accA alpha0 with hc1 | hc2
              · exact le_trans (r1 hc1) hle
              · exact le_trans (le_of_eq (r3 hc2).symm) hle
            rw [← heq]
            exact (max_eq_right haccM).symm
          · have hra : r.1 ≤ max alpha0 accA := by rw [← halpha]; exact hle2
            rcases le_max_iff.mp hra with hc | hc
            · exact absurd h (not_lt.mpr hc)
            · have heq : accA = r.1 := le_antisymm hle hc
              have h0A : alpha0 < accA := by rw [heq]; exact h
              have hAM : accA = accM := r3 h0A
              have hm : rM.1 ≤ r.1 := htr.1 hle2
              rw [← hAM, heq]
              exact (max_eq_left hm).symm
        · rw [max_eq_left hle] at h ⊢
          have hAM := r3 h
          have hEa : r.1 ≤ alpha := le_trans hle (by rw [halpha]; exact le_max_right _ _)
          have hm : rM.1 ≤ r.1 := htr.1 hEa
          rw [← hAM]
          exact (max_eq_left (le_trans hm hle)).symm

theorem abLoopMin_triple (recur : Board → EInt → EInt → EInt × Nat)
    (recurM : Board → EInt × Nat) (board : Board) (player : Player)
    (alpha beta0 : EInt) :
    ∀ (ms : List Nat) (accA accM beta : EInt) (nA nM : Nat),
      (∀ mv ∈ ms, ∀ b : EInt, alpha < b →
        TripleProp (recur (make_move board mv player) alpha b).1
          (recurM (make_move board mv player)).1 alpha b) →
      beta = min beta0 accA →
      alpha < beta →
      (beta0 ≤ accA → accA ≤ accM) →
      (accA < beta0 → accA = accM) →
      TripleProp (abLoopMin recur board player alpha ms accA beta nA).1
        (mmLoopMin recurM board player ms accM nM).1 alpha beta0 := by
  intro ms
  induction ms with
  | nil =>
    intro accA accM beta nA nM hchild hbeta hab r2 r3
    simp only [abLoopMin, mmLoopMin]
    refine ⟨?_, r2, fun _ h2 => r3 h2⟩
    intro hva
    have hA : beta ≤ accA := by rw [hbeta]; exact min_le_right _ _
    exact absurd (lt_of_lt_of_le hab (le_trans hA hva)) (lt_irrefl alpha)
  | cons mv rest ih =>
    intro accA accM beta nA nM hchild hbeta hab r2 r3
    simp only [abLoopMin, mmLoopMin, EInt.minE_eq_min]
    set r := recur (make_move board mv player) alpha beta with hr
    set rM := recurM (make_move board mv player) with hrM
    have htr : TripleProp r.1 rM.1 alpha beta :=
      hchild mv (List.mem_cons_self mv rest) beta hab
    have hchild' : ∀ mv2 ∈ rest, ∀ b : EInt, alpha < b →
        TripleProp (recur (make_move board mv2 player) alpha b).1
          (recurM (make_move board mv2 player)).1 alpha b :=
      fun mv2 hmem b hb => hchild mv2 (List.mem_cons_of_mem mv hmem) b hb
    by_cases hcut : EInt.ble (min beta r.1) alpha = true
    · rw [if_pos hcut]
      rw [EInt.ble_iff] at hcut
      refine ⟨?_, ?_, ?_⟩
      · intro hva
        have haccA : alpha < accA := lt_of_lt_of_le hab (by rw [hbeta]; exact min_le_right _ _)
        have hre : r.1 ≤ alpha := by
          rcases min_le_iff.mp hva with hc | hc
          · exact absurd (lt_of_lt_of_le haccA hc) (lt_irrefl alpha)
          · exact hc
        have hvm : rM.1 ≤ r.1 := htr.1 hre
        have hv : min accA r.1 = r.1 := min_eq_right (le_trans hre haccA.le)
        rw [hv]
        exact le_trans (le_trans (mmLoopMin_value_le recurM board player rest _ _)
          (min_le_right accM rM.1)) hvm
      · intro hbv
        have hA : beta0 ≤ accA := le_trans hbv (min_le_left _ _)
        have hE : beta0 ≤ r.1 := le_trans hbv (min_le_right _ _)
        have hb0 : beta = beta0 := by
          rw [hbeta]
          exact min_eq_left hA
        have : min beta r.1 = beta0 := by
          rw [hb0]
          exact min_eq_left hE
        rw [this] at hcut
        exact absurd (lt_of_le_of_lt hcut (hb0 ▸ hab)) (lt_irrefl beta0)
      · intro h1 _
        rcases min_le_iff.mp hcut with hc | hc
        · exact absurd (lt_of_lt_of_le hab hc) (lt_irrefl alpha)
        · exact absurd (lt_of_lt_of_le (lt_of_lt_of_le h1 (min_le_right accA r.1)) hc)
            (lt_irrefl alpha)
    · rw [if_neg hcut]
      have hcut' : alpha < min beta r.1 := by
        have hbf : EInt.ble (min beta r.1) alpha = false := by
          cases hb : EInt.ble (min beta r.1) alpha
          · rfl
          · exact absurd hb hcut
        exact EInt.not_ble_iff.mp hbf
      refine ih (min accA r.1) (min accM rM.1) (min beta r.1) (nA + r.2) (nM + rM.2)
        hchild' ?_ hcut' ?_ ?_
      · rw [hbeta, min_assoc]
      · intro h
        have hA : beta0 ≤ accA := le_trans h (min_le_left _ _)
        have hE : beta0 ≤ r.1 := le_trans h (min_le_right _ _)
        have hEb : beta ≤ r.1 := le_trans (by rw [hbeta]; exact min_le_left _ _) hE
        have hm : r.1 ≤ rM.1 := htr.2.1 hEb
        exact le_min (le_trans (min_le_left _ _) (r2 hA)) (le_trans (min_le_right _ _) hm)
      · intro h
        rcases le_total r.1 accA with hle | hle
        · rw [min_eq_right hle] at h ⊢
          rcases lt_or_le r.1 beta with halt | hle2
          · have halr : alpha < r.1 := lt_of_lt_of_le hcut' (min_le_right beta r.1)
            have heq : r.1 = rM.1 := htr.2.2 halr halt
            have haccM : r.1 ≤ accM := by
              rcases le_or_lt beta0 accA with hc1 | hc2
              · exact le_trans hle (r2 hc1)
              · exact le_trans hle (le_of_eq (r3 hc2))
            rw [← heq]
            exact (min_eq_right haccM).symm
          · have hra : min beta0 accA ≤ r.1 := by rw [← hbeta]; exact hle2
            rcases min_le_iff.mp hra with hc | hc
            · exact absurd h (not_lt.mpr hc)
            · have heq : accA = r.1 := le_antisymm hc hle
              have h0A : accA < beta0 := by rw [heq]; exact h
              have hAM : accA = accM := r3 h0A
              have hm : r.1 ≤ rM.1 := htr.2.1 hle2
              rw [← hAM, heq]
              exact (min_eq_left hm).symm
        · rw [min_eq_left hle] at h ⊢
          have hAM := r3 h
          have hEb : beta ≤ r.1 := le_trans (by rw [hbeta]; exact min_le_right _ _) hle
          have hm : r.1 ≤ rM.1 := htr.2.1 hEb
          rw [← hAM]
          exact (min_eq_left (le_trans hle hm)).symm

theorem ab_mm_triple (h : Board → Player → Int) (root_player : Player) :
    ∀ (fuel : Nat) (board : Board) (player : Player) (depth : Int) (alpha beta : EInt),
      alpha < beta →
      TripleProp (alphabetaF h root_player fuel board player depth alpha beta).1
        (minimaxF h root_player fuel board player depth).1 alpha beta := by
  intro fuel
  induction fuel with
  | zero =>
    intro board player depth alpha beta _
    exact TripleProp.refl _ _ _
  | succ n ih =>
    intro board player depth alpha beta hab
    by_cases hc : depth = 0 ∨ (check_winner board).isSome
    · simp only [alphabetaF, minimaxF, if_pos hc]
      exact TripleProp.refl _ _ _
    · by_cases hm : get_moves board = []
      · simp only [alphabetaF, minimaxF, if_neg hc, hm, if_pos rfl]
        exact TripleProp.refl _ _ _
      · by_cases hp : player = root_player
        · simp only [alphabetaF, minimaxF, if_neg hc, hm, if_neg hm, if_pos hp]
          refine abLoopMax_triple _ _ board player alpha beta (get_moves board)
            EInt.negInf EInt.negInf alpha 1 1 ?_ ?_ hab ?_ ?_
          · intro mv _ a ha
            exact ih (make_move board mv player) (get_opponent player) (depth - 1) a beta ha
          · exact (max_eq_left (EInt.negInf_le alpha)).symm
          · intro _
            exact le_refl _
          · intro hlt
            exact absurd hlt (not_lt.mpr (EInt.negInf_le alpha))
        · simp only [alphabetaF, minimaxF, if_neg hc, hm, if_neg hm, if_neg hp]
          refine abLoopMin_triple _ _ board player alpha beta (get_moves board)
            EInt.posInf EInt.posInf beta 1 1 ?_ ?_ hab ?_ ?_
          · intro mv _ b hb
            exact ih (make_move board mv player) (get_opponent player) (depth - 1) alpha b hb
          · exact (min_eq_left (EInt.le_posInf beta)).symm
          · intro _
            exact le_refl _
          · intro hlt
            exact absurd hlt (not_lt.mpr (EInt.le_posInf beta))

theorem ab_eq_mm_score (board : Board) (player : Player) (depth : Int)
    (root_player : Player) (h : Board → Player → Int) :
    (alphabeta board player depth .negInf .posInf root_player h).1
      = (minimax board player depth root_player h).1 := by
  show (alphabetaF h root_player board.length board player depth .negInf .posInf).1
    = (minimaxF h root_player board.length board player depth).1
  have ht := ab_mm_triple h root_player board.length board player depth
    .negInf .posInf EInt.negInf_lt_posInf
  obtain ⟨h1t, h2t, h3t⟩ := ht
  cases hv : (alphabetaF h root_player board.length board player depth .negInf .posInf).1 with
  | negInf =>
    have hm := h1t (by rw [hv])
    rw [hv] at hm
    exact (EInt.le_negInf_iff.mp hm).symm
  | fin z =>
    have := h3t (by rw [hv]; exact EInt.negInf_lt_fin z) (by rw [hv]; exact EInt.fin_lt_posInf z)
    rw [hv] at this
    exact this
  | posInf =>
    have hm := h2t (by rw [hv])
    rw [hv] at hm
    exact (EInt.posInf_le_iff.mp hm).symm

theorem gbmLoop_mm_ab (board : Board) (player : Player) (depth : Int)
    (h : Board → Player → Int) (is_max : Bool) :
    ∀ (ms : List Nat) (bm : Option Nat) (bv : EInt) (tA tB : Nat),
      ∃ (m : Option Nat) (nA nB : Nat),
        gbmLoop board player depth "minimax" h is_max ms bm bv tA = .ok (m, nA) ∧
        gbmLoop board player depth "alphabeta" h is_max ms bm bv tB = .ok (m, nB) := by
  intro ms
  induction ms with
  | nil =>
    intro bm bv tA tB
    exact ⟨bm, tA, tB, rfl, rfl⟩
  | cons mv rest ih =>
    intro bm bv tA tB
    have hsm : search_child board player depth "minimax" h mv
        = some (minimax (make_move board mv player) (get_opponent player) (depth - 1) Player.X h) := by
      rw [search_child]
      rw [if_pos rfl]
    have hsa : search_child board player depth "alphabeta" h mv
        = some (alphabeta (make_move board mv player) (get_opponent player) (depth - 1) .negInf .posInf Player.X h) := by
      rw [search_child]
      rw [if_neg (by decide), if_pos rfl]
    simp only [gbmLoop, hsm, hsa]
    have hveq : (alphabeta (make_move board mv player) (get_opponent player) (depth - 1) .negInf .posInf Player.X h).1
        = (minimax (make_move board mv player) (get_opponent player) (depth - 1) Player.X h).1 :=
      ab_eq_mm_score _ _ _ _ _
    rw [hveq]
    cases is_max with
    | true =>
      by_cases hb : EInt.blt bv (minimax (make_move board mv player) (get_opponent player) (depth - 1) Player.X h).1 = true
      · simp only [if_pos rfl, if_pos hb]
        exact ih _ _ _ _
      · simp only [if_pos rfl, if_neg hb]
        exact ih _ _ _ _
    | false =>
      by_cases hb : EInt.blt (minimax (make_move board mv player) (get_opponent player) (depth - 1) Player.X h).1 bv = true
      · simp only [Bool.false_eq_true, if_neg (by decide : ¬ (false = true)), if_pos hb]
        exact ih _ _ _ _
      · simp only [Bool.false_eq_true, if_neg (by decide : ¬ (false = true)), if_neg hb]
        exact ih _ _ _ _

/-- C1: the pruned search seeded with the infinite window computes the
same score as the exhaustive search on every position, player to move,
depth, root player and heuristic; and the move selector picks the same
move index under both algorithm names (their node totals may differ). -/
theorem minimax_alphabeta_equiv (board : Board) (player : Player) (depth : Int)
    (root_player : Player) (h : Board → Player → Int) :
    (alphabeta board player depth .negInf .posInf root_player h).1
      = (minimax board player depth root_player h).1 ∧
    ∃ (m : Option Nat) (nA nB : Nat),
      get_best_move board player depth "minimax" h = .ok (m, nA) ∧
      get_best_move board player depth "alphabeta" h = .ok (m, nB) := by
  refine ⟨ab_eq_mm_score board player depth root_player h, ?_⟩
  by_cases hm : get_moves board = []
  · exact ⟨none, 0, 0, by simp [get_best_move, hm], by simp [get_best_move, hm]⟩
  · unfold get_best_move
    rw [if_neg hm, if_neg hm]
    exact gbmLoop_mm_ab board player depth h _ _ _ _ _ _

/-!
Finiteness of search scores: every search value is an integer, because a
leaf scores as the heuristic and an inner node folds a nonempty list of
child scores.
-/

theorem EInt.maxE_negInf (x : EInt) : EInt.maxE .negInf x = x := by
  cases x <;> rfl

theorem EInt.minE_posInf (x : EInt) : EInt.minE .posInf x = x := by
  cases x <;> rfl

theorem EInt.maxE_fin (a b : Int) : EInt.maxE (.fin a) (.fin b) = .fin (max a b) := by
  unfold EInt.maxE
  by_cases hab : b ≤ a
  · simp [EInt.ble, hab, max_eq_left hab]
  · have hba : a ≤ b := le_of_not_le hab
    simp [EInt.ble, hab, max_eq_right hba]

theorem EInt.minE_fin (a b : Int) : EInt.minE (.fin a) (.fin b) = .fin (min a b) := by
  unfold EInt.minE
  by_cases hab : a ≤ b
  · simp [EInt.ble, hab, min_eq_left hab]
  · have hba : b ≤ a := le_of_not_le hab
    simp [EInt.ble, hab, min_eq_right hba]

theorem mmLoopMax_fin (recur : Board → EInt × Nat) (board : Board) (player : Player)
    (hrec : ∀ nb, ∃ z, (recur nb).1 = .fin z) :
    ∀ (ms : List Nat) (z0 : Int) (n : Nat),
      ∃ z, (mmLoopMax recur board player ms (.fin z0) n).1 = .fin z := by
  intro ms
  induction ms with
  | nil => intro z0 n; exact ⟨z0, rfl⟩
  | cons mv rest ih =>
    intro z0 n
    simp only [mmLoopMax]
    obtain ⟨zc, hzc⟩ := hrec (make_move board mv player)
    rw [hzc, EInt.maxE_fin]
    exact ih _ _

theorem mmLoopMin_fin (recur : Board → EInt × Nat) (board : Board) (player : Player)
    (hrec : ∀ nb, ∃ z, (recur nb).1 = .fin z) :
    ∀ (ms : List Nat) (z0 : Int) (n : Nat),
      ∃ z, (mmLoopMin recur board player ms (.fin z0) n).1 = .fin z := by
  intro ms
  induction ms with
  | nil => intro z0 n; exact ⟨z0, rfl⟩
  | cons mv rest ih =>
    intro z0 n
    simp only [mmLoopMin]
    obtain ⟨zc, hzc⟩ := hrec (make_move board mv player)
    rw [hzc, EInt.minE_fin]
    exact ih _ _

theorem minimaxF_fin (h : Board → Player → Int) (root_player : Player) :
    ∀ (fuel : Nat) (board : Board) (player : Player) (depth : Int),
      ∃ z, (minimaxF h root_player fuel board player depth).1 = .fin z := by
  intro fuel
  induction fuel with
  | zero => intro board player depth; exact ⟨h board root_player, rfl⟩
  | succ n ih =>
    intro board player depth
    by_cases hc : depth = 0 ∨ (check_winner board).isSome
    · exact ⟨h board root_player, by simp [minimaxF, hc]⟩
    · by_cases hm : get_moves board = []
      · exact ⟨h board root_player, by simp [minimaxF, hc, hm]⟩
      · obtain ⟨mv, rest, hms⟩ : ∃ mv rest, get_moves board = mv :: rest := by
          cases hg : get_moves board with
          | nil => exact absurd hg hm
          | cons a b => exact ⟨a, b, rfl⟩
        have hrec : ∀ nb, ∃ z, (minimaxF h root_player n nb (get_opponent player) (depth - 1)).1 = .fin z :=
          fun nb => ih nb (get_opponent player) (depth - 1)
        by_cases hp : player = root_player
        · simp only [minimaxF, if_neg hc, hms, if_neg (List.cons_ne_nil mv rest), if_pos hp]
          simp only [mmLoopMax]
          obtain ⟨zc, hzc⟩ := hrec (make_move board mv player)
          rw [hzc, EInt.maxE_negInf]
          exact mmLoopMax_fin _ board player hrec rest zc _
        · simp only [minimaxF, if_neg hc, hms, if_neg (List.cons_ne_nil mv rest), if_neg hp]
          simp only [mmLoopMin]
          obtain ⟨zc, hzc⟩ := hrec (make_move board mv player)
          rw [hzc, EInt.minE_posInf]
          exact mmLoopMin_fin _ board player hrec rest zc _

theorem abLoopMax_fin (recur : Board → EInt → EInt → EInt × Nat) (board : Board)
    (player : Player) (beta : EInt)
    (hrec : ∀ nb a b, ∃ z, (recur nb a b).1 = .fin z) :
    ∀ (ms : List Nat) (z0 : Int) (alpha : EInt) (n : Nat),
      ∃ z, (abLoopMax recur board player beta ms (.fin z0) alpha n).1 = .fin z := by
  intro ms
  induction ms with
  | nil => intro z0 alpha n; exact ⟨z0, rfl⟩
  | cons mv rest ih =>
    intro z0 alpha n
    simp only [abLoopMax]
    obtain ⟨zc, hzc⟩ := hrec (make_move board mv player) alpha beta
    rw [hzc, EInt.maxE_fin]
    by_cases hcut : EInt.ble beta (EInt.maxE alpha (EInt.fin zc)) = true
    · rw [if_pos hcut]
      exact ⟨max z0 zc, rfl⟩
    · rw [if_neg hcut]
      exact ih _ _ _

theorem abLoopMin_fin (recur : Board → EInt → EInt → EInt × Nat) (board : Board)
    (player : Player) (alpha : EInt)
    (hrec : ∀ nb a b, ∃ z, (recur nb a b).1 = .fin z) :
    ∀ (ms : List Nat) (z0 : Int) (beta : EInt) (n : Nat),
      ∃ z, (abLoopMin recur board player alpha ms (.fin z0) beta n).1 = .fin z := by
  intro ms
  induction ms with
  | nil => intro z0 beta n; exact ⟨z0, rfl⟩
  | cons mv rest ih =>
    intro z0 beta n
    simp only [abLoopMin]
    obtain ⟨zc, hzc⟩ := hrec (make_move board mv player) alpha beta
    rw [hzc, EInt.minE_fin]
    by_cases hcut : EInt.ble (EInt.minE beta (EInt.fin zc)) alpha = true
    · rw [if_pos hcut]
      exact ⟨min z0 zc, rfl⟩
    · rw [if_neg hcut]
      exact ih _ _ _

theorem alphabetaF_fin (h : Board → Player → Int) (root_player : Player) :
    ∀ (fuel : Nat) (board : Board) (player : Player) (depth : Int) (alpha beta : EInt),
      ∃ z, (alphabetaF h root_player fuel board player depth alpha beta).1 = .fin z := by
  intro fuel
  induction fuel with
  | zero => intro board player depth alpha beta; exact ⟨h board root_player, rfl⟩
  | succ n ih =>
    intro board player depth alpha beta
    by_cases hc : depth = 0 ∨ (check_winner board).isSome
    · exact ⟨h board root_player, by simp [alphabetaF, hc]⟩
    · by_cases hm : get_moves board = []
      · exact ⟨h board root_player, by simp [alphabetaF, hc, hm]⟩
      · obtain ⟨mv, rest, hms⟩ : ∃ mv rest, get_moves board = mv :: rest := by
          cases hg : get_moves board with
          | nil => exact absurd hg hm
          | cons a b => exact ⟨a, b, rfl⟩
        have hrec : ∀ nb a b, ∃ z, (alphabetaF h root_player n nb (get_opponent player) (depth - 1) a b).1 = .fin z :=
          fun nb a b => ih nb (get_opponent player) (depth - 1) a b
        by_cases hp : player = root_player
        · simp only [alphabetaF, if_neg hc, hms, if_neg (List.cons_ne_nil mv rest), if_pos hp]
          simp only [abLoopMax]
          obtain ⟨zc, hzc⟩ := hrec (make_move board mv player) alpha beta
          rw [hzc, EInt.maxE_negInf]
          by_cases hcut : EInt.ble beta (EInt.maxE alpha (EInt.fin zc)) = true
          · rw [if_pos hcut]
            exact ⟨zc, rfl⟩
          · rw [if_neg hcut]
            exact abLoopMax_fin _ board player beta hrec rest zc _ _
        · simp only [alphabetaF, if_neg hc, hms, if_neg (List.cons_ne_nil mv rest), if_neg hp]
          simp only [abLoopMin]
          obtain ⟨zc, hzc⟩ := hrec (make_move board mv player) alpha beta
          rw [hzc, EInt.minE_posInf]
          by_cases hcut : EInt.ble (EInt.minE beta (EInt.fin zc)) alpha = true
          · rw [if_pos hcut]
            exact ⟨zc, rfl⟩
          · rw [if_neg hcut]
            exact abLoopMin_fin _ board player alpha hrec rest zc _ _

theorem minimax_fin (board : Board) (player : Player) (depth : Int)
    (root_player : Player) (h : Board → Player → Int) :
    ∃ z, (minimax board player depth root_player h).1 = .fin z :=
  minimaxF_fin h root_player board.length board player depth

theorem alphabeta_fin (board : Board) (player : Player) (depth : Int)
    (alpha beta : EInt) (root_player : Player) (h : Board → Player → Int) :
    ∃ z, (alphabeta board player depth alpha beta root_player h).1 = .fin z :=
  alphabetaF_fin h root_player board.length board player depth alpha beta

/-!
Characterization of the candidate loop of get_best_move: it selects the
first candidate attaining the extremal score, and sums the node counts.
-/

theorem EInt.blt_eq_false_iff {a b : EInt} : EInt.blt a b = false ↔ b ≤ a := by
  unfold EInt.blt
  cases hble : EInt.ble b a
  · simp only [Bool.not_false]
    constructor
    · intro hcon
      exact absurd hcon (by decide)
    · intro hle
      exact absurd hle (EInt.not_ble_iff.mp hble).not_le
  · simp only [Bool.not_true]
    exact ⟨fun _ => EInt.ble_iff.mp hble, fun _ => trivial⟩

/-- Score of one candidate move of get_best_move under the chosen search
algorithm (the root player fixed as X, as in get_best_move). -/
def cscore (board : Board) (player : Player) (depth : Int) (algorithm : String)
    (h : Board → Player → Int) (mv : Nat) : EInt :=
  ((search_child board player depth algorithm h mv).map Prod.fst).getD (.fin 0)

/-- Node count of one candidate move of get_best_move. -/
def cnodes (board : Board) (player : Player) (depth : Int) (algorithm : String)
    (h : Board → Player → Int) (mv : Nat) : Nat :=
  ((search_child board player depth algorithm h mv).map Prod.snd).getD 0

/-- Pure selection loop underlying get_best_move: a candidate strictly
better than the champion (in the sense of the better test) replaces it. -/
def selectBest (better : EInt → EInt → Bool) (score : Nat → EInt) :
    List Nat → Option Nat → EInt → Option Nat × EInt
  | [], bm, bv => (bm, bv)
  | mv :: rest, bm, bv =>
    if better bv (score mv) = true then
      selectBest better score rest (some mv) (score mv)
    else
      selectBest better score rest bm bv

theorem gbmLoop_eq_selectBest_max (board : Board) (player : Player) (depth : Int)
    (algorithm : String) (h : Board → Player → Int)
    (hsc : ∀ mv : Nat, (search_child board player depth algorithm h mv).isSome = true) :
    ∀ (ms : List Nat) (bm : Option Nat) (bv : EInt) (t : Nat),
      gbmLoop board player depth algorithm h true ms bm bv t
        = .ok ((selectBest (fun a b => EInt.blt a b) (cscore board player depth algorithm h) ms bm bv).1,
            t + (ms.map (cnodes board player depth algorithm h)).sum) := by
  intro ms
  induction ms with
  | nil =>
    intro bm bv t
    simp [gbmLoop, selectBest]
  | cons mv rest ih =>
    intro bm bv t
    obtain ⟨r, hr⟩ := Option.isSome_iff_exists.mp (hsc mv)
    have hcs : cscore board player depth algorithm h mv = r.1 := by
      simp [cscore, hr]
    have hcn : cnodes board player depth algorithm h mv = r.2 := by
      simp [cnodes, hr]
    simp only [gbmLoop, hr, selectBest, List.map_cons, List.sum_cons, hcs, hcn]
    rw [if_pos trivial]
    by_cases hb : EInt.blt bv r.1 = true
    · rw [if_pos hb, if_pos hb, ih]
      rw [Nat.add_assoc]
    · rw [if_neg hb, if_neg hb, ih]
      rw [Nat.add_assoc]

theorem gbmLoop_eq_selectBest_min (board : Board) (player : Player) (depth : Int)
    (algorithm : String) (h : Board → Player → Int)
    (hsc : ∀ mv : Nat, (search_child board player depth algorithm h mv).isSome = true) :
    ∀ (ms : List Nat) (bm : Option Nat) (bv : EInt) (t : Nat),
      gbmLoop board player depth algorithm h false ms bm bv t
        = .ok ((selectBest (fun a b => EInt.blt b a) (cscore board player depth algorithm h) ms bm bv).1,
            t + (ms.map (cnodes board player depth algorithm h)).sum) := by
  intro ms
  induction ms with
  | nil =>
    intro bm bv t
    simp [gbmLoop, selectBest]
  | cons mv rest ih =>
    intro bm bv t
    obtain ⟨r, hr⟩ := Option.isSome_iff_exists.mp (hsc mv)
    have hcs : cscore board player depth algorithm h mv = r.1 := by
      simp [cscore, hr]
    have hcn : cnodes board player depth algorithm h mv = r.2 := by
      simp [cnodes, hr]
    simp only [gbmLoop, hr, selectBest, List.map_cons, List.sum_cons, hcs, hcn]
    rw [if_neg (by decide : ¬ (false = true))]
    by_cases hb : EInt.blt r.1 bv = true
    · rw [if_pos hb, if_pos hb, ih]
      rw [Nat.add_assoc]
    · rw [if_neg hb, if_neg hb, ih]
      rw [Nat.add_assoc]

theorem selectBest_max_spec (score : Nat → EInt) :
    ∀ (ms : List Nat) (bm : Option Nat) (bv : EInt),
      (∀ mv ∈ ms, score mv ≤ (selectBest (fun a b => EInt.blt a b) score ms bm bv).2) ∧
      bv ≤ (selectBest (fun a b => EInt.blt a b) score ms bm bv).2 ∧
      (((selectBest (fun a b => EInt.blt a b) score ms bm bv).1 = bm ∧
        (selectBest (fun a b => EInt.blt a b) score ms bm bv).2 = bv) ∨
        ∃ m l1 l2, (selectBest (fun a b => EInt.blt a b) score ms bm bv).1 = some m ∧
          (selectBest (fun a b => EInt.blt a b) score ms bm bv).2 = score m ∧
          ms = l1 ++ m :: l2 ∧ bv < score m ∧ ∀ mv ∈ l1, score mv < score m) := by
  intro ms
  induction ms with
  | nil =>
    intro bm bv
    refine ⟨by simp, le_refl bv, Or.inl ⟨rfl, rfl⟩⟩
  | cons mv rest ih =>
    intro bm bv
    simp only [selectBest]
    by_cases hb : EInt.blt bv (score mv) = true
    · rw [if_pos hb]
      obtain ⟨ih1, ih2, ih3⟩ := ih (some mv) (score mv)
      have hblt : bv < score mv := EInt.blt_iff.mp hb
      refine ⟨?_, le_trans hblt.le ih2, ?_⟩
      · intro mv2 hmv2
        rcases List.mem_cons.mp hmv2 with rfl | hmem
        · exact ih2
        · exact ih1 mv2 hmem
      · rcases ih3 with ⟨hm, hv⟩ | ⟨m, l1, l2, hm, hv, hsplit, hbv2, hl1⟩
        · exact Or.inr ⟨mv, [], rest, hm, hv, by simp, hblt, by simp⟩
        · refine Or.inr ⟨m, mv :: l1, l2, hm, hv, ?_, lt_trans hblt hbv2, ?_⟩
          · rw [List.cons_append, hsplit]
          · intro mv2 hmv2
            rcases List.mem_cons.mp hmv2 with rfl | hmem
            · exact hbv2
            · exact hl1 mv2 hmem
    · rw [if_neg hb]
      obtain ⟨ih1, ih2, ih3⟩ := ih bm bv
      have hle : score mv ≤ bv := by
        apply EInt.blt_eq_false_iff.mp
        cases hx : EInt.blt bv (score mv)
        · rfl
        · exact absurd hx hb
      refine ⟨?_, ih2, ?_⟩
      · intro mv2 hmv2
        rcases List.mem_cons.mp hmv2 with rfl | hmem
        · exact le_trans hle ih2
        · exact ih1 mv2 hmem
      · rcases ih3 with ⟨hm, hv⟩ | ⟨m, l1, l2, hm, hv, hsplit, hbv2, hl1⟩
        · exact Or.inl ⟨hm, hv⟩
        · refine Or.inr ⟨m, mv :: l1, l2, hm, hv, ?_, hbv2, ?_⟩
          · rw [List.cons_append, hsplit]
          · intro mv2 hmv2
            rcases List.mem_cons.mp hmv2 with rfl | hmem
            · exact lt_of_le_of_lt hle hbv2
            · exact hl1 mv2 hmem

theorem selectBest_min_spec (score : Nat → EInt) :
    ∀ (ms : List Nat) (bm : Option Nat) (bv : EInt),
      (∀ mv ∈ ms, (selectBest (fun a b => EInt.blt b a) score ms bm bv).2 ≤ score mv) ∧
      (selectBest (fun a b => EInt.blt b a) score ms bm bv).2 ≤ bv ∧
      (((selectBest (fun a b => EInt.blt b a) score ms bm bv).1 = bm ∧
        (selectBest (fun a b => EInt.blt b a) score ms bm bv).2 = bv) ∨
        ∃ m l1 l2, (selectBest (fun a b => EInt.blt b a) score ms bm bv).1 = some m ∧
          (selectBest (fun a b => EInt.blt b a) score ms bm bv).2 = score m ∧
          ms = l1 ++ m :: l2 ∧ score m < bv ∧ ∀ mv ∈ l1, score m < score mv) := by
  intro ms
  induction ms with
  | nil =>
    intro bm bv
    refine ⟨by simp, le_refl bv, Or.inl ⟨rfl, rfl⟩⟩
  | cons mv rest ih =>
    intro bm bv
    simp only [selectBest]
    by_cases hb : EInt.blt (score mv) bv = true
    · rw [if_pos hb]
      obtain ⟨ih1, ih2, ih3⟩ := ih (some mv) (score mv)
      have hblt : score mv < bv := EInt.blt_iff.mp hb
      refine ⟨?_, le_trans ih2 hblt.le, ?_⟩
      · intro mv2 hmv2
        rcases List.mem_cons.mp hmv2 with rfl | hmem
        · exact ih2
        · exact ih1 mv2 hmem
      · rcases ih3 with ⟨hm, hv⟩ | ⟨m, l1, l2, hm, hv, hsplit, hbv2, hl1⟩
        · exact Or.inr ⟨mv, [], rest, hm, hv, by simp, hblt, by simp⟩
        · refine Or.inr ⟨m, mv :: l1, l2, hm, hv, ?_, lt_trans hbv2 hblt, ?_⟩
          · rw [List.cons_append, hsplit]
          · intro mv2 hmv2
            rcases List.mem_cons.mp hmv2 with rfl | hmem
            · exact hbv2
            · exact hl1 mv2 hmem
    · rw [if_neg hb]
      obtain ⟨ih1, ih2, ih3⟩ := ih bm bv
      have hle : bv ≤ score mv := by
        apply EInt.blt_eq_false_iff.mp
        cases hx : EInt.blt (score mv) bv
        · rfl
        · exact absurd hx hb
      refine ⟨?_, ih2, ?_⟩
      · intro mv2 hmv2
        rcases List.mem_cons.mp hmv2 with rfl | hmem
        · exact le_trans ih2 hle
        · exact ih1 mv2 hmem
      · rcases ih3 with ⟨hm, hv⟩ | ⟨m, l1, l2, hm, hv, hsplit, hbv2, hl1⟩
        · exact Or.inl ⟨hm, hv⟩
        · refine Or.inr ⟨m, mv :: l1, l2, hm, hv, ?_, hbv2, ?_⟩
          · rw [List.cons_append, hsplit]
          · intro mv2 hmv2
            rcases List.mem_cons.mp hmv2 with rfl | hmem
            · exact lt_of_lt_of_le hbv2 hle
            · exact hl1 mv2 hmem
